import Mathlib

/-!
Verification of the point-region quadtree implemented in `qtree/quad_tree.py`.

The embedding below is a faithful shallow embedding of the Python source:

* `Point` and `Rectangle` mirror the classes of the same names; Python float
  coordinates are modelled as rationals (the program only compares coordinates
  and halves extents, so the claims do not hinge on rounding).
* `QuadTree` is an inductive: the Python object either has `divided == False`
  (constructor `leaf`) or `divided == True` together with the four child
  attributes `northeast`, `northwest`, `southeast`, `southwest` (constructor
  `node`); the source sets the flag and the four attributes together in
  `_subdivide` and nowhere else.
* `InsertPoint` in Python recurses into freshly created children, and for
  `capacity == 0` that recursion does not terminate; the embedding therefore
  uses a fuel-indexed function `insertFuel` (returning `none` on fuel
  exhaustion) and defines `InsertPoint` with fuel `height t + 2`, which is
  proved sufficient whenever every capacity in the tree is at least 1.
* `QueryRegion` in Python threads one mutable list `found` through the
  recursion, guarded at entry by `if not found: found = []`.  The guard means:
  a recursive call that receives an EMPTY list rebinds `found` to a fresh list,
  so everything that call appends is invisible to its caller (the caller
  ignores the return value of child calls).  A call that receives a NON-EMPTY
  list appends to the caller's own list object, so the caller's list reflects
  all appends of the whole sub-traversal.  The pure embedding reproduces this
  exactly: before each child call the current accumulator is tested for
  emptiness, and if it is empty the child call's result is discarded.
  The module-level default argument starts empty and is never mutated (a call
  receiving an empty list immediately rebinds and never appends to it), which
  `QueryRegionDefaultCall` models by threading the default value explicitly.
-/

/-- `Point` of quad_tree.py: x and y coordinates plus the `name` label. -/
structure Point where
  x : ℚ
  y : ℚ
  name : String
deriving DecidableEq, Repr

/-- `Rectangle` of quad_tree.py: `(x, y)` is the center, `w`/`h` the
half-width and half-height. -/
structure Rectangle where
  x : ℚ
  y : ℚ
  w : ℚ
  h : ℚ
deriving DecidableEq, Repr

/-- `Rectangle.ContainsPoint`: strict inequalities on both axes, exactly as in
the source: `self.x - self.w < pt.x < self.x + self.w and
self.y - self.h < pt.y < self.y + self.h`. -/
def Rectangle.ContainsPoint (r : Rectangle) (pt : Point) : Bool :=
  decide (r.x - r.w < pt.x) && decide (pt.x < r.x + r.w) &&
  decide (r.y - r.h < pt.y) && decide (pt.y < r.y + r.h)

/-- `Rectangle.IntersectsRegion`: the separating-axis test of the source,
inclusive at shared edges. -/
def Rectangle.IntersectsRegion (r : Rectangle) (region : Rectangle) : Bool :=
  !(decide (region.x - region.w > r.x + r.w) ||
    decide (region.x + region.w < r.x - r.w) ||
    decide (region.y - region.h > r.y + r.h) ||
    decide (region.y + region.h < r.y - r.h))

/-- `QuadTree` of quad_tree.py.  `leaf` is a node with `divided == False`;
`node` is a node with `divided == True` and its four children in the order
northeast, northwest, southeast, southwest. -/
inductive QuadTree where
  | leaf (boundary : Rectangle) (capacity : Nat) (points : List Point)
  | node (boundary : Rectangle) (capacity : Nat) (points : List Point)
      (northeast northwest southeast southwest : QuadTree)
deriving DecidableEq, Repr

/-- The `boundary` attribute. -/
def QuadTree.boundary : QuadTree → Rectangle
  | .leaf b _ _ => b
  | .node b _ _ _ _ _ _ => b

/-- The `capacity` attribute. -/
def QuadTree.capacity : QuadTree → Nat
  | .leaf _ c _ => c
  | .node _ c _ _ _ _ _ => c

/-- The `points` attribute. -/
def QuadTree.points : QuadTree → List Point
  | .leaf _ _ pts => pts
  | .node _ _ pts _ _ _ _ => pts

/-- The `divided` attribute: `True` exactly when `_subdivide` has run, i.e.
when the four children exist. -/
def QuadTree.divided : QuadTree → Bool
  | .leaf _ _ _ => false
  | .node _ _ _ _ _ _ _ => true

/-- The `northeast` attribute (absent on an undivided node). -/
def QuadTree.northeastChild : QuadTree → Option QuadTree
  | .leaf _ _ _ => none
  | .node _ _ _ ne _ _ _ => some ne

/-- The `northwest` attribute (absent on an undivided node). -/
def QuadTree.northwestChild : QuadTree → Option QuadTree
  | .leaf _ _ _ => none
  | .node _ _ _ _ nw _ _ => some nw

/-- The `southeast` attribute (absent on an undivided node). -/
def QuadTree.southeastChild : QuadTree → Option QuadTree
  | .leaf _ _ _ => none
  | .node _ _ _ _ _ se _ => some se

/-- The `southwest` attribute (absent on an undivided node). -/
def QuadTree.southwestChild : QuadTree → Option QuadTree
  | .leaf _ _ _ => none
  | .node _ _ _ _ _ _ sw => some sw

/-- The children of a node as a list (empty for an undivided node). -/
def QuadTree.childrenList : QuadTree → List QuadTree
  | .leaf _ _ _ => []
  | .node _ _ _ ne nw se sw => [ne, nw, se, sw]

/-- Boundary of the northeast child created by `_subdivide`:
`Rectangle(x + w/2, y + h/2, w/2, h/2)`. -/
def northeastRect (b : Rectangle) : Rectangle :=
  ⟨b.x + b.w / 2, b.y + b.h / 2, b.w / 2, b.h / 2⟩

/-- Boundary of the northwest child created by `_subdivide`:
`Rectangle(x - w/2, y + h/2, w/2, h/2)`. -/
def northwestRect (b : Rectangle) : Rectangle :=
  ⟨b.x - b.w / 2, b.y + b.h / 2, b.w / 2, b.h / 2⟩

/-- Boundary of the southeast child created by `_subdivide`:
`Rectangle(x + w/2, y - h/2, w/2, h/2)`. -/
def southeastRect (b : Rectangle) : Rectangle :=
  ⟨b.x + b.w / 2, b.y - b.h / 2, b.w / 2, b.h / 2⟩

/-- Boundary of the southwest child created by `_subdivide`:
`Rectangle(x - w/2, y - h/2, w/2, h/2)`. -/
def southwestRect (b : Rectangle) : Rectangle :=
  ⟨b.x - b.w / 2, b.y - b.h / 2, b.w / 2, b.h / 2⟩

/-- Fuel-indexed embedding of `QuadTree.InsertPoint`.  Mirrors the source
branch for branch: bounds check first, then the `len(self.points) <
self.capacity` append (note: tested BEFORE `divided`, exactly as in the
source), otherwise subdivide if necessary and forward the point to all four
children.  `none` means the Python recursion would still be running when the
fuel runs out (which happens only for capacity 0). -/
def insertFuel : Nat → QuadTree → Point → Option QuadTree
  | 0, _, _ => none
  | fuel + 1, t, point =>
    if t.boundary.ContainsPoint point = false then some t
    else
      match t with
      | .leaf b c pts =>
        if pts.length < c then some (.leaf b c (pts ++ [point]))
        else
          (insertFuel fuel (.leaf (northeastRect b) c []) point).bind fun ne1 =>
          (insertFuel fuel (.leaf (northwestRect b) c []) point).bind fun nw1 =>
          (insertFuel fuel (.leaf (southeastRect b) c []) point).bind fun se1 =>
          (insertFuel fuel (.leaf (southwestRect b) c []) point).map fun sw1 =>
          .node b c pts ne1 nw1 se1 sw1
      | .node b c pts ne nw se sw =>
        if pts.length < c then some (.node b c (pts ++ [point]) ne nw se sw)
        else
          (insertFuel fuel ne point).bind fun ne1 =>
          (insertFuel fuel nw point).bind fun nw1 =>
          (insertFuel fuel se point).bind fun se1 =>
          (insertFuel fuel sw point).map fun sw1 =>
          .node b c pts ne1 nw1 se1 sw1

/-- Height of the tree: 0 for an undivided node. -/
def QuadTree.height : QuadTree → Nat
  | .leaf _ _ _ => 0
  | .node _ _ _ ne nw se sw =>
    max (max ne.height nw.height) (max se.height sw.height) + 1

/-- `QuadTree.InsertPoint`.  Fuel `height t + 2` is proved sufficient whenever
every capacity in the tree is at least 1 (`insertFuel_isSome`); on fuel
exhaustion (capacity 0, where Python diverges) the tree is returned
unchanged. -/
def QuadTree.InsertPoint (t : QuadTree) (point : Point) : QuadTree :=
  (insertFuel (t.height + 2) t point).getD t

/-- `QuadTree.QueryRegion`, with the mutable accumulator of the source made
explicit.  The source guard `if not found: found = []` rebinds an empty
incoming list to a fresh object, so a recursive child call invoked with an
empty accumulator appends to a list the caller never sees (the caller ignores
child return values and returns its own `found`).  This is modelled by testing
the accumulator for emptiness before each child call and discarding the child
call's result when it is empty.  A non-empty accumulator is the caller's own
list object, so the child call's result is the caller's updated list. -/
def QuadTree.QueryRegion : QuadTree → Rectangle → List Point → List Point
  | .leaf b _ pts, region, found =>
    if b.IntersectsRegion region = false then found
    else found ++ pts.filter (fun p => region.ContainsPoint p)
  | .node b _ pts ne nw se sw, region, found =>
    if b.IntersectsRegion region = false then found
    else
      let found1 := found ++ pts.filter (fun p => region.ContainsPoint p)
      let found2 := if found1.isEmpty then found1 else ne.QueryRegion region found1
      let found3 := if found2.isEmpty then found2 else nw.QueryRegion region found2
      let found4 := if found3.isEmpty then found3 else se.QueryRegion region found3
      if found4.isEmpty then found4 else sw.QueryRegion region found4

/-- One call of `QueryRegion` through the default argument `found=[]`.
Input: the tree, the region, and the current contents of the (module-level,
shared) default list object.  Output: the call's result and the default
object's contents after the call.  A call that receives the default while it
is empty rebinds (`if not found: found = []`) and never touches it; a call
that receives it non-empty appends into it. -/
def QueryRegionDefaultCall (t : QuadTree) (region : Rectangle)
    (dflt : List Point) : List Point × List Point :=
  if dflt.isEmpty then (t.QueryRegion region [], dflt)
  else (t.QueryRegion region dflt, t.QueryRegion region dflt)

/-- `QuadTree.__init__`: fresh tree over a boundary, empty points, undivided. -/
def NewQuadTree (boundary : Rectangle) (capacity : Nat) : QuadTree :=
  .leaf boundary capacity []

/-- Fold a list of insertions over a tree. -/
def insertList (t : QuadTree) (ps : List Point) : QuadTree :=
  ps.foldl QuadTree.InsertPoint t

/-- Total number of points stored anywhere in the tree. -/
def totalPoints : QuadTree → Nat
  | .leaf _ _ pts => pts.length
  | .node _ _ pts ne nw se sw =>
    pts.length + totalPoints ne + totalPoints nw + totalPoints se + totalPoints sw

/-- Every capacity in the tree is at least 1. -/
def capPosB : QuadTree → Bool
  | .leaf _ c _ => decide (1 ≤ c)
  | .node _ c _ ne nw se sw =>
    decide (1 ≤ c) && capPosB ne && capPosB nw && capPosB se && capPosB sw

/-- Structural invariant maintained by insertion: an undivided node holds at
most `capacity` points, a divided node holds exactly `capacity` points, and
the same recursively in the children. -/
def invB : QuadTree → Bool
  | .leaf _ c pts => decide (pts.length ≤ c)
  | .node _ c pts ne nw se sw =>
    decide (pts.length = c) && invB ne && invB nw && invB se && invB sw

/-- Every node's directly stored points satisfy that node's boundary's strict
containment test, recursively. -/
def storedOKB : QuadTree → Bool
  | .leaf b _ pts => pts.all (fun p => b.ContainsPoint p)
  | .node b _ pts ne nw se sw =>
    pts.all (fun p => b.ContainsPoint p) &&
      storedOKB ne && storedOKB nw && storedOKB se && storedOKB sw

/-- Unlabelled point, as produced by `Point(x, y)` with the default name. -/
def P (x y : ℚ) : Point := ⟨x, y, ""⟩

/-- Closed-box membership, used to state that the four quadrant rectangles
tile the parent rectangle with no gap. -/
def closedMember (r : Rectangle) (qx qy : ℚ) : Prop :=
  r.x - r.w ≤ qx ∧ qx ≤ r.x + r.w ∧ r.y - r.h ≤ qy ∧ qy ≤ r.y + r.h

/-- The root used in the concrete capacity-4 scenarios of the spec:
boundary centered at the origin with half-extents (10, 10), capacity 4. -/
def demoRoot : QuadTree := NewQuadTree ⟨0, 0, 10, 10⟩ 4

/-- Unfolding of the strict containment test into its four inequalities. -/
theorem containsPoint_iff (r : Rectangle) (p : Point) :
    r.ContainsPoint p = true ↔
      r.x - r.w < p.x ∧ p.x < r.x + r.w ∧ r.y - r.h < p.y ∧ p.y < r.y + r.h := by
  simp [Rectangle.ContainsPoint, and_assoc]

/-- Unfolding of the negated containment test. -/
theorem containsPoint_eq_false_iff (r : Rectangle) (p : Point) :
    r.ContainsPoint p = false ↔
      ¬(r.x - r.w < p.x ∧ p.x < r.x + r.w ∧ r.y - r.h < p.y ∧ p.y < r.y + r.h) := by
  rw [← containsPoint_iff]
  cases h : r.ContainsPoint p <;> simp

/-- Unfolding of the inclusive separating-axis intersection test. -/
theorem intersects_iff (r s : Rectangle) :
    r.IntersectsRegion s = true ↔
      s.x - s.w ≤ r.x + r.w ∧ r.x - r.w ≤ s.x + s.w ∧
      s.y - s.h ≤ r.y + r.h ∧ r.y - r.h ≤ s.y + s.h := by
  simp [Rectangle.IntersectsRegion, not_lt, and_assoc]

/-- A point strictly inside both rectangles forces them to intersect. -/
theorem intersects_of_common_point (b r : Rectangle) (p : Point)
    (hb : b.ContainsPoint p = true) (hr : r.ContainsPoint p = true) :
    b.IntersectsRegion r = true := by
  rw [containsPoint_iff] at hb hr
  rw [intersects_iff]
  obtain ⟨h1, h2, h3, h4⟩ := hb
  obtain ⟨g1, g2, g3, g4⟩ := hr
  exact ⟨by linarith, by linarith, by linarith, by linarith⟩

/-- Containment in the northeast quadrant rectangle, in terms of the parent. -/
theorem northeastRect_contains_iff (b : Rectangle) (p : Point) :
    (northeastRect b).ContainsPoint p = true ↔
      b.x < p.x ∧ p.x < b.x + b.w ∧ b.y < p.y ∧ p.y < b.y + b.h := by
  rw [containsPoint_iff]
  unfold northeastRect
  constructor <;> rintro ⟨h1, h2, h3, h4⟩ <;>
    exact ⟨by linarith, by linarith, by linarith, by linarith⟩

/-- Containment in the northwest quadrant rectangle, in terms of the parent. -/
theorem northwestRect_contains_iff (b : Rectangle) (p : Point) :
    (northwestRect b).ContainsPoint p = true ↔
      b.x - b.w < p.x ∧ p.x < b.x ∧ b.y < p.y ∧ p.y < b.y + b.h := by
  rw [containsPoint_iff]
  unfold northwestRect
  constructor <;> rintro ⟨h1, h2, h3, h4⟩ <;>
    exact ⟨by linarith, by linarith, by linarith, by linarith⟩

/-- Containment in the southeast quadrant rectangle, in terms of the parent. -/
theorem southeastRect_contains_iff (b : Rectangle) (p : Point) :
    (southeastRect b).ContainsPoint p = true ↔
      b.x < p.x ∧ p.x < b.x + b.w ∧ b.y - b.h < p.y ∧ p.y < b.y := by
  rw [containsPoint_iff]
  unfold southeastRect
  constructor <;> rintro ⟨h1, h2, h3, h4⟩ <;>
    exact ⟨by linarith, by linarith, by linarith, by linarith⟩

/-- Containment in the southwest quadrant rectangle, in terms of the parent. -/
theorem southwestRect_contains_iff (b : Rectangle) (p : Point) :
    (southwestRect b).ContainsPoint p = true ↔
      b.x - b.w < p.x ∧ p.x < b.x ∧ b.y - b.h < p.y ∧ p.y < b.y := by
  rw [containsPoint_iff]
  unfold southwestRect
  constructor <;> rintro ⟨h1, h2, h3, h4⟩ <;>
    exact ⟨by linarith, by linarith, by linarith, by linarith⟩

/-- Inserting into a freshly created empty child: with positive capacity the
point is appended (or dropped by the bounds check) with no further recursion. -/
theorem insertFuel_fresh (fuel : Nat) (r : Rectangle) (c : Nat) (point : Point)
    (hc : 1 ≤ c) (hf : 1 ≤ fuel) :
    insertFuel fuel (.leaf r c []) point =
      some (.leaf r c (if r.ContainsPoint point then [point] else [])) := by
  obtain ⟨f', rfl⟩ : ∃ f', fuel = f' + 1 := ⟨fuel - 1, by omega⟩
  rw [insertFuel]
  have hc0 : 0 < c := hc
  by_cases hcp : r.ContainsPoint point = false
  · simp [QuadTree.boundary, hcp]
  · have htrue : r.ContainsPoint point = true := by
      cases h : r.ContainsPoint point
      · exact absurd h hcp
      · rfl
    simp [QuadTree.boundary, hcp, htrue, hc0]

/-- Fuel monotonicity: a successful insertion result does not depend on the
amount of fuel, as long as there is enough. -/
theorem insertFuel_mono : ∀ (f : Nat) (t : QuadTree) (point : Point) (t' : QuadTree) (g : Nat),
    insertFuel f t point = some t' → f ≤ g → insertFuel g t point = some t' := by
  intro f
  induction f with
  | zero => intro t point t' g h hg; simp [insertFuel] at h
  | succ f ih =>
    intro t point t' g h hg
    obtain ⟨g', rfl⟩ : ∃ g', g = g' + 1 := ⟨g - 1, by omega⟩
    have hfg : f ≤ g' := by omega
    cases t with
    | leaf b c pts =>
      rw [insertFuel] at h
      rw [insertFuel]
      by_cases hc : (QuadTree.leaf b c pts).boundary.ContainsPoint point = false
      · rw [if_pos hc] at h
        rw [if_pos hc]
        exact h
      · rw [if_neg hc] at h
        rw [if_neg hc]
        by_cases hl : pts.length < c
        · rw [if_pos hl] at h
          rw [if_pos hl]
          exact h
        · rw [if_neg hl] at h
          rw [if_neg hl]
          rcases Option.bind_eq_some.mp h with ⟨ne1, hne, h⟩
          rcases Option.bind_eq_some.mp h with ⟨nw1, hnw, h⟩
          rcases Option.bind_eq_some.mp h with ⟨se1, hse, h⟩
          rcases Option.map_eq_some'.mp h with ⟨sw1, hsw, rfl⟩
          rw [ih _ _ _ _ hne hfg, ih _ _ _ _ hnw hfg, ih _ _ _ _ hse hfg,
              ih _ _ _ _ hsw hfg]
          rfl
    | node b c pts ne nw se sw =>
      rw [insertFuel] at h
      rw [insertFuel]
      by_cases hc : (QuadTree.node b c pts ne nw se sw).boundary.ContainsPoint point = false
      · rw [if_pos hc] at h
        rw [if_pos hc]
        exact h
      · rw [if_neg hc] at h
        rw [if_neg hc]
        by_cases hl : pts.length < c
        · rw [if_pos hl] at h
          rw [if_pos hl]
          exact h
        · rw [if_neg hl] at h
          rw [if_neg hl]
          rcases Option.bind_eq_some.mp h with ⟨ne1, hne, h⟩
          rcases Option.bind_eq_some.mp h with ⟨nw1, hnw, h⟩
          rcases Option.bind_eq_some.mp h with ⟨se1, hse, h⟩
          rcases Option.map_eq_some'.mp h with ⟨sw1, hsw, rfl⟩
          rw [ih _ _ _ _ hne hfg, ih _ _ _ _ hnw hfg, ih _ _ _ _ hse hfg,
              ih _ _ _ _ hsw hfg]
          rfl

/-- Fuel sufficiency: when every capacity in the tree is at least 1, fuel
`height + 2` always suffices, i.e. the source recursion terminates. -/
theorem insertFuel_isSome : ∀ (t : QuadTree) (point : Point) (f : Nat),
    capPosB t = true → t.height + 2 ≤ f → (insertFuel f t point).isSome = true := by
  intro t
  induction t with
  | leaf b c pts =>
    intro point f hcap hf
    obtain ⟨f', rfl⟩ : ∃ f', f = f' + 1 := ⟨f - 1, by omega⟩
    have hc1 : 1 ≤ c := by simpa [capPosB] using hcap
    have hf' : 1 ≤ f' := by omega
    rw [insertFuel]
    by_cases hc : (QuadTree.leaf b c pts).boundary.ContainsPoint point = false
    · simp [hc]
    · rw [if_neg hc]
      by_cases hl : pts.length < c
      · simp [hl]
      · rw [if_neg hl]
        rw [insertFuel_fresh f' _ c point hc1 hf', insertFuel_fresh f' _ c point hc1 hf',
            insertFuel_fresh f' _ c point hc1 hf', insertFuel_fresh f' _ c point hc1 hf']
        rfl
  | node b c pts ne nw se sw ihne ihnw ihse ihsw =>
    intro point f hcap hf
    obtain ⟨f', rfl⟩ : ∃ f', f = f' + 1 := ⟨f - 1, by omega⟩
    simp only [capPosB, Bool.and_eq_true, decide_eq_true_eq] at hcap
    obtain ⟨⟨⟨⟨hc1, hcne⟩, hcnw⟩, hcse⟩, hcsw⟩ := hcap
    simp only [QuadTree.height] at hf
    have hne2 : ne.height + 2 ≤ f' := by omega
    have hnw2 : nw.height + 2 ≤ f' := by omega
    have hse2 : se.height + 2 ≤ f' := by omega
    have hsw2 : sw.height + 2 ≤ f' := by omega
    rw [insertFuel]
    by_cases hc : (QuadTree.node b c pts ne nw se sw).boundary.ContainsPoint point = false
    · simp [hc]
    · rw [if_neg hc]
      by_cases hl : pts.length < c
      · simp [hl]
      · rw [if_neg hl]
        obtain ⟨ne1, hne⟩ := Option.isSome_iff_exists.mp (ihne point f' hcne hne2)
        obtain ⟨nw1, hnw⟩ := Option.isSome_iff_exists.mp (ihnw point f' hcnw hnw2)
        obtain ⟨se1, hse⟩ := Option.isSome_iff_exists.mp (ihse point f' hcse hse2)
        obtain ⟨sw1, hsw⟩ := Option.isSome_iff_exists.mp (ihsw point f' hcsw hsw2)
        rw [hne, hnw, hse, hsw]
        rfl

/-- With positive capacities, any sufficient fuel computes `InsertPoint`. -/
theorem insertFuel_eq_insertPoint (t : QuadTree) (point : Point) (f : Nat)
    (hcap : capPosB t = true) (hf : t.height + 2 ≤ f) :
    insertFuel f t point = some (t.InsertPoint point) := by
  obtain ⟨t', ht'⟩ :=
    Option.isSome_iff_exists.mp (insertFuel_isSome t point (t.height + 2) hcap le_rfl)
  have hres : t.InsertPoint point = t' := by
    rw [QuadTree.InsertPoint, ht']
    rfl
  rw [hres]
  exact insertFuel_mono _ _ _ _ _ ht' hf

/-- Step 1 of the source `InsertPoint`: a point outside the node's boundary is
silently dropped, leaving the node unchanged. -/
theorem insertPoint_of_not_contains (t : QuadTree) (point : Point)
    (h : t.boundary.ContainsPoint point = false) : t.InsertPoint point = t := by
  rw [QuadTree.InsertPoint]
  cases t with
  | leaf b c pts =>
    rw [insertFuel, if_pos h]
    rfl
  | node b c pts ne nw se sw =>
    rw [insertFuel, if_pos h]
    rfl

/-- Step 2 of the source `InsertPoint` on an undivided node with spare
capacity: the point is appended. -/
theorem insertPoint_leaf_append (b : Rectangle) (c : Nat) (pts : List Point) (point : Point)
    (hcont : b.ContainsPoint point = true) (hlen : pts.length < c) :
    (QuadTree.leaf b c pts).InsertPoint point = .leaf b c (pts ++ [point]) := by
  rw [QuadTree.InsertPoint, insertFuel]
  rw [if_neg (by simp [QuadTree.boundary, hcont]), if_pos hlen]
  rfl

/-- The append branch is also taken, without re-testing `divided`, on a
divided node with spare direct capacity (unreachable from the constructor, but
present in the source). -/
theorem insertPoint_node_append (b : Rectangle) (c : Nat) (pts : List Point)
    (ne nw se sw : QuadTree) (point : Point)
    (hcont : b.ContainsPoint point = true) (hlen : pts.length < c) :
    (QuadTree.node b c pts ne nw se sw).InsertPoint point =
      .node b c (pts ++ [point]) ne nw se sw := by
  rw [QuadTree.InsertPoint, insertFuel]
  rw [if_neg (by simp [QuadTree.boundary, hcont]), if_pos hlen]
  rfl

/-- Step 3 of the source `InsertPoint` on a full undivided node: subdivide and
forward the point to all four fresh children; each child keeps the point
exactly when its own quadrant rectangle strictly contains it. -/
theorem insertPoint_leaf_full (b : Rectangle) (c : Nat) (pts : List Point) (point : Point)
    (hc : 1 ≤ c) (hlen : ¬ pts.length < c) (hcont : b.ContainsPoint point = true) :
    (QuadTree.leaf b c pts).InsertPoint point =
      .node b c pts
        (.leaf (northeastRect b) c
          (if (northeastRect b).ContainsPoint point then [point] else []))
        (.leaf (northwestRect b) c
          (if (northwestRect b).ContainsPoint point then [point] else []))
        (.leaf (southeastRect b) c
          (if (southeastRect b).ContainsPoint point then [point] else []))
        (.leaf (southwestRect b) c
          (if (southwestRect b).ContainsPoint point then [point] else [])) := by
  rw [QuadTree.InsertPoint, insertFuel]
  rw [if_neg (by simp [QuadTree.boundary, hcont]), if_neg hlen]
  rw [insertFuel_fresh _ _ _ _ hc (by simp [QuadTree.height]),
      insertFuel_fresh _ _ _ _ hc (by simp [QuadTree.height]),
      insertFuel_fresh _ _ _ _ hc (by simp [QuadTree.height]),
      insertFuel_fresh _ _ _ _ hc (by simp [QuadTree.height])]
  rfl

/-- Step 3 of the source `InsertPoint` on a full divided node: the point is
forwarded to all four children and the directly stored points are untouched. -/
theorem insertPoint_node_full (b : Rectangle) (c : Nat) (pts : List Point)
    (ne nw se sw : QuadTree) (point : Point)
    (hcap : capPosB (.node b c pts ne nw se sw) = true)
    (hlen : ¬ pts.length < c) (hcont : b.ContainsPoint point = true) :
    (QuadTree.node b c pts ne nw se sw).InsertPoint point =
      .node b c pts (ne.InsertPoint point) (nw.InsertPoint point)
        (se.InsertPoint point) (sw.InsertPoint point) := by
  simp only [capPosB, Bool.and_eq_true, decide_eq_true_eq] at hcap
  obtain ⟨⟨⟨⟨hc1, hcne⟩, hcnw⟩, hcse⟩, hcsw⟩ := hcap
  rw [QuadTree.InsertPoint, insertFuel]
  rw [if_neg (by simp [QuadTree.boundary, hcont]), if_neg hlen]
  have hfuel : ∀ s : QuadTree, s = ne ∨ s = nw ∨ s = se ∨ s = sw →
      s.height + 2 ≤ (QuadTree.node b c pts ne nw se sw).height + 1 := by
    intro s hs
    simp only [QuadTree.height]
    rcases hs with rfl | rfl | rfl | rfl <;> omega
  rw [insertFuel_eq_insertPoint ne point _ hcne (hfuel ne (Or.inl rfl)),
      insertFuel_eq_insertPoint nw point _ hcnw (hfuel nw (Or.inr (Or.inl rfl))),
      insertFuel_eq_insertPoint se point _ hcse (hfuel se (Or.inr (Or.inr (Or.inl rfl)))),
      insertFuel_eq_insertPoint sw point _ hcsw (hfuel sw (Or.inr (Or.inr (Or.inr rfl))))]
  rfl

/-- A successful insertion preserves positivity of all capacities (children
created by subdivision inherit the parent's capacity unchanged). -/
theorem insertFuel_capPos : ∀ (f : Nat) (t : QuadTree) (point : Point) (t' : QuadTree),
    insertFuel f t point = some t' → capPosB t = true → capPosB t' = true := by
  intro f
  induction f with
  | zero => intro t point t' h _; simp [insertFuel] at h
  | succ f ih =>
    intro t point t' h hcap
    cases t with
    | leaf b c pts =>
      rw [insertFuel] at h
      have hc1 : 1 ≤ c := by simpa [capPosB] using hcap
      by_cases hc : (QuadTree.leaf b c pts).boundary.ContainsPoint point = false
      · rw [if_pos hc] at h
        obtain rfl := Option.some.inj h
        exact hcap
      · rw [if_neg hc] at h
        by_cases hl : pts.length < c
        · rw [if_pos hl] at h
          obtain rfl := Option.some.inj h
          simpa [capPosB] using hc1
        · rw [if_neg hl] at h
          rcases Option.bind_eq_some.mp h with ⟨ne1, hne, h⟩
          rcases Option.bind_eq_some.mp h with ⟨nw1, hnw, h⟩
          rcases Option.bind_eq_some.mp h with ⟨se1, hse, h⟩
          rcases Option.map_eq_some'.mp h with ⟨sw1, hsw, rfl⟩
          have hfresh : ∀ r : Rectangle, capPosB (.leaf r c []) = true := by
            intro r
            simpa [capPosB] using hc1
          simp only [capPosB, Bool.and_eq_true, decide_eq_true_eq]
          exact ⟨⟨⟨⟨hc1, ih _ _ _ hne (hfresh _)⟩, ih _ _ _ hnw (hfresh _)⟩,
            ih _ _ _ hse (hfresh _)⟩, ih _ _ _ hsw (hfresh _)⟩
    | node b c pts ne nw se sw =>
      rw [insertFuel] at h
      simp only [capPosB, Bool.and_eq_true, decide_eq_true_eq] at hcap
      obtain ⟨⟨⟨⟨hc1, hcne⟩, hcnw⟩, hcse⟩, hcsw⟩ := hcap
      by_cases hc : (QuadTree.node b c pts ne nw se sw).boundary.ContainsPoint point = false
      · rw [if_pos hc] at h
        obtain rfl := Option.some.inj h
        simp only [capPosB, Bool.and_eq_true, decide_eq_true_eq]
        exact ⟨⟨⟨⟨hc1, hcne⟩, hcnw⟩, hcse⟩, hcsw⟩
      · rw [if_neg hc] at h
        by_cases hl : pts.length < c
        · rw [if_pos hl] at h
          obtain rfl := Option.some.inj h
          simp only [capPosB, Bool.and_eq_true, decide_eq_true_eq]
          exact ⟨⟨⟨⟨hc1, hcne⟩, hcnw⟩, hcse⟩, hcsw⟩
        · rw [if_neg hl] at h
          rcases Option.bind_eq_some.mp h with ⟨ne1, hne, h⟩
          rcases Option.bind_eq_some.mp h with ⟨nw1, hnw, h⟩
          rcases Option.bind_eq_some.mp h with ⟨se1, hse, h⟩
          rcases Option.map_eq_some'.mp h with ⟨sw1, hsw, rfl⟩
          simp only [capPosB, Bool.and_eq_true, decide_eq_true_eq]
          exact ⟨⟨⟨⟨hc1, ih _ _ _ hne hcne⟩, ih _ _ _ hnw hcnw⟩,
            ih _ _ _ hse hcse⟩, ih _ _ _ hsw hcsw⟩

/-- A successful insertion preserves the length invariant: undivided nodes
hold at most `capacity` points, divided nodes exactly `capacity`. -/
theorem insertFuel_inv : ∀ (f : Nat) (t : QuadTree) (point : Point) (t' : QuadTree),
    insertFuel f t point = some t' → invB t = true → invB t' = true := by
  intro f
  induction f with
  | zero => intro t point t' h _; simp [insertFuel] at h
  | succ f ih =>
    intro t point t' h hinv
    cases t with
    | leaf b c pts =>
      rw [insertFuel] at h
      have hle : pts.length ≤ c := by simpa [invB] using hinv
      by_cases hc : (QuadTree.leaf b c pts).boundary.ContainsPoint point = false
      · rw [if_pos hc] at h
        obtain rfl := Option.some.inj h
        exact hinv
      · rw [if_neg hc] at h
        by_cases hl : pts.length < c
        · rw [if_pos hl] at h
          obtain rfl := Option.some.inj h
          simp only [invB, decide_eq_true_eq, List.length_append, List.length_cons,
            List.length_nil]
          omega
        · rw [if_neg hl] at h
          rcases Option.bind_eq_some.mp h with ⟨ne1, hne, h⟩
          rcases Option.bind_eq_some.mp h with ⟨nw1, hnw, h⟩
          rcases Option.bind_eq_some.mp h with ⟨se1, hse, h⟩
          rcases Option.map_eq_some'.mp h with ⟨sw1, hsw, rfl⟩
          have hfresh : ∀ r : Rectangle, invB (.leaf r c []) = true := by
            intro r
            simp [invB]
          simp only [invB, Bool.and_eq_true, decide_eq_true_eq]
          exact ⟨⟨⟨⟨by omega, ih _ _ _ hne (hfresh _)⟩, ih _ _ _ hnw (hfresh _)⟩,
            ih _ _ _ hse (hfresh _)⟩, ih _ _ _ hsw (hfresh _)⟩
    | node b c pts ne nw se sw =>
      rw [insertFuel] at h
      simp only [invB, Bool.and_eq_true, decide_eq_true_eq] at hinv
      obtain ⟨⟨⟨⟨hlen, hine⟩, hinw⟩, hise⟩, hisw⟩ := hinv
      by_cases hc : (QuadTree.node b c pts ne nw se sw).boundary.ContainsPoint point = false
      · rw [if_pos hc] at h
        obtain rfl := Option.some.inj h
        simp only [invB, Bool.and_eq_true, decide_eq_true_eq]
        exact ⟨⟨⟨⟨hlen, hine⟩, hinw⟩, hise⟩, hisw⟩
      · rw [if_neg hc] at h
        by_cases hl : pts.length < c
        · exact absurd hl (by omega)
        · rw [if_neg hl] at h
          rcases Option.bind_eq_some.mp h with ⟨ne1, hne, h⟩
          rcases Option.bind_eq_some.mp h with ⟨nw1, hnw, h⟩
          rcases Option.bind_eq_some.mp h with ⟨se1, hse, h⟩
          rcases Option.map_eq_some'.mp h with ⟨sw1, hsw, rfl⟩
          simp only [invB, Bool.and_eq_true, decide_eq_true_eq]
          exact ⟨⟨⟨⟨hlen, ih _ _ _ hne hine⟩, ih _ _ _ hnw hinw⟩,
            ih _ _ _ hse hise⟩, ih _ _ _ hsw hisw⟩

/-- A successful insertion preserves the containment invariant: every point
stored directly in a node lies strictly inside that node's boundary. -/
theorem insertFuel_storedOK : ∀ (f : Nat) (t : QuadTree) (point : Point) (t' : QuadTree),
    insertFuel f t point = some t' → storedOKB t = true → storedOKB t' = true := by
  intro f
  induction f with
  | zero => intro t point t' h _; simp [insertFuel] at h
  | succ f ih =>
    intro t point t' h hok
    cases t with
    | leaf b c pts =>
      rw [insertFuel] at h
      by_cases hc : (QuadTree.leaf b c pts).boundary.ContainsPoint point = false
      · rw [if_pos hc] at h
        obtain rfl := Option.some.inj h
        exact hok
      · rw [if_neg hc] at h
        have hcont : b.ContainsPoint point = true := by
          revert hc
          cases hcp : b.ContainsPoint point <;> simp [QuadTree.boundary, hcp]
        have hall : pts.all (fun p => b.ContainsPoint p) = true := by
          simpa [storedOKB] using hok
        by_cases hl : pts.length < c
        · rw [if_pos hl] at h
          obtain rfl := Option.some.inj h
          simp only [storedOKB, List.all_append, Bool.and_eq_true]
          exact ⟨hall, by simp [hcont]⟩
        · rw [if_neg hl] at h
          rcases Option.bind_eq_some.mp h with ⟨ne1, hne, h⟩
          rcases Option.bind_eq_some.mp h with ⟨nw1, hnw, h⟩
          rcases Option.bind_eq_some.mp h with ⟨se1, hse, h⟩
          rcases Option.map_eq_some'.mp h with ⟨sw1, hsw, rfl⟩
          have hfresh : ∀ r : Rectangle, storedOKB (.leaf r c []) = true := by
            intro r
            simp [storedOKB]
          simp only [storedOKB, Bool.and_eq_true]
          exact ⟨⟨⟨⟨hall, ih _ _ _ hne (hfresh _)⟩, ih _ _ _ hnw (hfresh _)⟩,
            ih _ _ _ hse (hfresh _)⟩, ih _ _ _ hsw (hfresh _)⟩
    | node b c pts ne nw se sw =>
      rw [insertFuel] at h
      simp only [storedOKB, Bool.and_eq_true] at hok
      obtain ⟨⟨⟨⟨hall, hone⟩, honw⟩, hose⟩, hosw⟩ := hok
      by_cases hc : (QuadTree.node b c pts ne nw se sw).boundary.ContainsPoint point = false
      · rw [if_pos hc] at h
        obtain rfl := Option.some.inj h
        simp only [storedOKB, Bool.and_eq_true]
        exact ⟨⟨⟨⟨hall, hone⟩, honw⟩, hose⟩, hosw⟩
      · rw [if_neg hc] at h
        have hcont : b.ContainsPoint point = true := by
          revert hc
          cases hcp : b.ContainsPoint point <;> simp [QuadTree.boundary, hcp]
        by_cases hl : pts.length < c
        · rw [if_pos hl] at h
          obtain rfl := Option.some.inj h
          simp only [storedOKB, List.all_append, Bool.and_eq_true]
          exact ⟨⟨⟨⟨⟨hall, by simp [hcont]⟩, hone⟩, honw⟩, hose⟩, hosw⟩
        · rw [if_neg hl] at h
          rcases Option.bind_eq_some.mp h with ⟨ne1, hne, h⟩
          rcases Option.bind_eq_some.mp h with ⟨nw1, hnw, h⟩
          rcases Option.bind_eq_some.mp h with ⟨se1, hse, h⟩
          rcases Option.map_eq_some'.mp h with ⟨sw1, hsw, rfl⟩
          simp only [storedOKB, Bool.and_eq_true]
          exact ⟨⟨⟨⟨hall, ih _ _ _ hne hone⟩, ih _ _ _ hnw honw⟩,
            ih _ _ _ hse hose⟩, ih _ _ _ hsw hosw⟩

/-- `InsertPoint` preserves capacity positivity. -/
theorem insertPoint_capPos (t : QuadTree) (point : Point)
    (h : capPosB t = true) : capPosB (t.InsertPoint point) = true := by
  rw [QuadTree.InsertPoint]
  cases hf : insertFuel (t.height + 2) t point with
  | none => simpa using h
  | some t' => simpa using insertFuel_capPos _ _ _ _ hf h

/-- `InsertPoint` preserves the length invariant. -/
theorem insertPoint_inv (t : QuadTree) (point : Point)
    (h : invB t = true) : invB (t.InsertPoint point) = true := by
  rw [QuadTree.InsertPoint]
  cases hf : insertFuel (t.height + 2) t point with
  | none => simpa using h
  | some t' => simpa using insertFuel_inv _ _ _ _ hf h

/-- `InsertPoint` preserves the containment invariant. -/
theorem insertPoint_storedOK (t : QuadTree) (point : Point)
    (h : storedOKB t = true) : storedOKB (t.InsertPoint point) = true := by
  rw [QuadTree.InsertPoint]
  cases hf : insertFuel (t.height + 2) t point with
  | none => simpa using h
  | some t' => simpa using insertFuel_storedOK _ _ _ _ hf h

/-- Any tree built from a fresh root by insertions satisfies the containment
invariant. -/
theorem insertList_storedOK (b : Rectangle) (c : Nat) (ps : List Point) :
    storedOKB (insertList (NewQuadTree b c) ps) = true := by
  rw [insertList]
  have hstart : storedOKB (NewQuadTree b c) = true := by simp [NewQuadTree, storedOKB]
  revert hstart
  generalize (NewQuadTree b c : QuadTree) = t0
  induction ps generalizing t0 with
  | nil => exact fun h => h
  | cons q qs ihq =>
    intro h
    rw [List.foldl_cons]
    exact ihq _ (insertPoint_storedOK t0 q h)

/-- Any tree built from a fresh root by insertions satisfies the length
invariant. -/
theorem insertList_inv (b : Rectangle) (c : Nat) (ps : List Point) :
    invB (insertList (NewQuadTree b c) ps) = true := by
  rw [insertList]
  have hstart : invB (NewQuadTree b c) = true := by simp [NewQuadTree, invB]
  revert hstart
  generalize (NewQuadTree b c : QuadTree) = t0
  induction ps generalizing t0 with
  | nil => exact fun h => h
  | cons q qs ihq =>
    intro h
    rw [List.foldl_cons]
    exact ihq _ (insertPoint_inv t0 q h)

/-- Any tree built from a fresh root with positive capacity satisfies
capacity positivity everywhere. -/
theorem insertList_capPos (b : Rectangle) (c : Nat) (ps : List Point) (hc : 1 ≤ c) :
    capPosB (insertList (NewQuadTree b c) ps) = true := by
  rw [insertList]
  have hstart : capPosB (NewQuadTree b c) = true := by simpa [NewQuadTree, capPosB] using hc
  revert hstart
  generalize (NewQuadTree b c : QuadTree) = t0
  induction ps generalizing t0 with
  | nil => exact fun h => h
  | cons q qs ihq =>
    intro h
    rw [List.foldl_cons]
    exact ihq _ (insertPoint_capPos t0 q h)

/-- Every point in a query result was either already in the accumulator or
passes the query region's strict containment test (the source appends a point
only after `region.ContainsPoint(p)` succeeds). -/
theorem mem_queryRegion : ∀ (t : QuadTree) (region : Rectangle) (found : List Point)
    (p : Point), p ∈ t.QueryRegion region found →
    p ∈ found ∨ region.ContainsPoint p = true := by
  intro t
  induction t with
  | leaf b c pts =>
    intro region found p hp
    rw [QuadTree.QueryRegion] at hp
    split at hp
    · exact Or.inl hp
    · rcases List.mem_append.mp hp with hl | hr
      · exact Or.inl hl
      · exact Or.inr (List.of_mem_filter hr)
  | node b c pts ne nw se sw ihne ihnw ihse ihsw =>
    intro region found p hp
    rw [QuadTree.QueryRegion] at hp
    split at hp
    · exact Or.inl hp
    · simp only at hp
      have step : ∀ (s : QuadTree) (l : List Point),
          (∀ region0 found0 q, q ∈ s.QueryRegion region0 found0 →
            q ∈ found0 ∨ region0.ContainsPoint q = true) →
          p ∈ (if l.isEmpty = true then l else s.QueryRegion region l) →
          p ∈ l ∨ region.ContainsPoint p = true := by
        intro s l ihs hmem
        by_cases hl : l.isEmpty = true
        · rw [if_pos hl] at hmem
          exact Or.inl hmem
        · rw [if_neg hl] at hmem
          exact ihs region l p hmem
      have h4 := step _ _ ihsw hp
      rcases h4 with h4 | h4
      · have h3 := step _ _ ihse h4
        rcases h3 with h3 | h3
        · have h2 := step _ _ ihnw h3
          rcases h2 with h2 | h2
          · have h1 := step _ _ ihne h2
            rcases h1 with h1 | h1
            · rcases List.mem_append.mp h1 with hl | hr
              · exact Or.inl hl
              · exact Or.inr (List.of_mem_filter hr)
            · exact Or.inr h1
          · exact Or.inr h2
        · exact Or.inr h3
      · exact Or.inr h4

/-- Claim C2: on an undivided node, querying with a fresh empty accumulator
returns exactly the stored points that pass the strict containment test of
the query region (order preserved).  The hypothesis that the stored points lie
inside the node's boundary holds for every node the program can build
(`insertList_storedOK`); it rules out artificial states where a stored point
lies in the query region while the boundary is disjoint from it. -/
theorem query_completeness_undivided (b : Rectangle) (c : Nat) (pts : List Point)
    (region : Rectangle) (hstored : ∀ p ∈ pts, b.ContainsPoint p = true) :
    (QuadTree.leaf b c pts).QueryRegion region [] =
      pts.filter (fun p => region.ContainsPoint p) := by
  rw [QuadTree.QueryRegion]
  split
  · next hint =>
      symm
      rw [List.filter_eq_nil_iff]
      intro p hp hcp
      have hx := intersects_of_common_point b region p (hstored p hp) hcp
      rw [hint] at hx
      exact absurd hx (by simp)
  · simp

/-- Witness for C2: a concrete undivided node with one point inside and one
outside the query region. -/
theorem query_completeness_undivided_witness :
    (QuadTree.leaf ⟨0, 0, 10, 10⟩ 4 [P 1 1, P 9 9]).QueryRegion ⟨1, 1, 2, 2⟩ [] =
      [P 1 1] := by
  rw [query_completeness_undivided ⟨0, 0, 10, 10⟩ 4 [P 1 1, P 9 9] ⟨1, 1, 2, 2⟩
    (by norm_num [Rectangle.ContainsPoint, P])]
  norm_num [List.filter, Rectangle.ContainsPoint, P]

/-- Claim C6: the containment test holds exactly when the point is strictly
inside the rectangle on both axes, and the spec's concrete examples for the
unit rectangle centered at the origin. -/
theorem containsPoint_strict_examples :
    (∀ (r : Rectangle) (p : Point),
      r.ContainsPoint p = true ↔
        r.x - r.w < p.x ∧ p.x < r.x + r.w ∧ r.y - r.h < p.y ∧ p.y < r.y + r.h) ∧
    Rectangle.ContainsPoint ⟨0, 0, 1, 1⟩ (P 0.999 0.999) = true ∧
    Rectangle.ContainsPoint ⟨0, 0, 1, 1⟩ (P (-0.999) (-0.999)) = true ∧
    Rectangle.ContainsPoint ⟨0, 0, 1, 1⟩ (P 1 0) = false ∧
    Rectangle.ContainsPoint ⟨0, 0, 1, 1⟩ (P 0 1) = false ∧
    Rectangle.ContainsPoint ⟨0, 0, 1, 1⟩ (P (-1) (-1)) = false :=
  ⟨containsPoint_iff,
    by norm_num [Rectangle.ContainsPoint, P],
    by norm_num [Rectangle.ContainsPoint, P],
    by norm_num [Rectangle.ContainsPoint, P],
    by norm_num [Rectangle.ContainsPoint, P],
    by norm_num [Rectangle.ContainsPoint, P]⟩

/-- Claim C7: with every capacity at least 1, insertion terminates — there is
a unique result that any fuel at least `height + 2` computes (nesting depth of
the source recursion is bounded by the tree height plus one) — and the region
query, being structurally recursive, is total as well. -/
theorem insert_query_terminate (t : QuadTree) (point : Point)
    (hcap : capPosB t = true) :
    (∃ t', ∀ f, t.height + 2 ≤ f → insertFuel f t point = some t') ∧
    (∀ (region : Rectangle) (found : List Point),
      ∃ res, t.QueryRegion region found = res) :=
  ⟨⟨t.InsertPoint point, fun f hf => insertFuel_eq_insertPoint t point f hcap hf⟩,
    fun _ _ => ⟨_, rfl⟩⟩

/-- Witness for C7 at a concrete capacity-4 tree. -/
theorem insert_query_terminate_witness :
    capPosB demoRoot = true ∧
    ((∃ t', ∀ f, demoRoot.height + 2 ≤ f → insertFuel f demoRoot (P 1 1) = some t') ∧
      (∀ (region : Rectangle) (found : List Point),
        ∃ res, demoRoot.QueryRegion region found = res)) :=
  ⟨by decide, insert_query_terminate demoRoot (P 1 1) (by decide)⟩

/-- Claim C8: inserting a point that fails the root boundary's containment
test is a silent no-op: the resulting tree is identical, hence so is the total
stored point count. -/
theorem out_of_bounds_insert_noop (t : QuadTree) (point : Point)
    (h : t.boundary.ContainsPoint point = false) :
    t.InsertPoint point = t ∧ totalPoints (t.InsertPoint point) = totalPoints t := by
  have heq := insertPoint_of_not_contains t point h
  exact ⟨heq, by rw [heq]⟩

/-- Witness for C8: the point (20, 20) lies outside the demo boundary. -/
theorem out_of_bounds_insert_noop_witness :
    demoRoot.InsertPoint (P 20 20) = demoRoot ∧
    totalPoints (demoRoot.InsertPoint (P 20 20)) = totalPoints demoRoot :=
  out_of_bounds_insert_noop demoRoot (P 20 20)
    (by norm_num [demoRoot, NewQuadTree, QuadTree.boundary, Rectangle.ContainsPoint, P])

/-- Claim C10: in every tree reachable by constructing a root and performing
any sequence of insertions, every directly stored point of every node passes
that node's boundary's strict containment test; the second conjunct unfolds
the recursive boolean invariant at one node. -/
theorem stored_points_in_boundary :
    (∀ (b : Rectangle) (c : Nat) (ps : List Point),
      storedOKB (insertList (NewQuadTree b c) ps) = true) ∧
    (∀ t : QuadTree, storedOKB t = true →
      ∀ p ∈ t.points, t.boundary.ContainsPoint p = true) := by
  constructor
  · exact insertList_storedOK
  · intro t hok p hp
    cases t with
    | leaf b c pts =>
      simp only [storedOKB, List.all_eq_true] at hok
      exact hok p hp
    | node b c pts ne nw se sw =>
      simp only [storedOKB, Bool.and_eq_true, List.all_eq_true] at hok
      exact hok.1.1.1.1 p hp

/-- Witness for C10 on a concrete insertion sequence (points inside and
outside the boundary, enough to trigger subdivision). -/
theorem stored_points_in_boundary_witness :
    storedOKB (insertList (NewQuadTree ⟨0, 0, 10, 10⟩ 4)
      [P 1 1, P 2 2, P 3 3, P (-1) (-1), P 4 4, P 20 20, P 7 7]) = true ∧
    (storedOKB demoRoot = true →
      ∀ p ∈ demoRoot.points, demoRoot.boundary.ContainsPoint p = true) :=
  ⟨stored_points_in_boundary.1 ⟨0, 0, 10, 10⟩ 4
      [P 1 1, P 2 2, P 3 3, P (-1) (-1), P 4 4, P 20 20, P 7 7],
    stored_points_in_boundary.2 demoRoot⟩

/-- Turn an impossibility of containment into a false boolean test. -/
theorem contains_eq_false (r : Rectangle) (p : Point)
    (h : r.ContainsPoint p = true → False) : r.ContainsPoint p = false := by
  cases hc : r.ContainsPoint p
  · rfl
  · exact absurd hc h

/-- At most one of the four quadrant rectangles contains any given point. -/
theorem countP_quadrants_le_one (b : Rectangle) (point : Point) :
    ([northeastRect b, northwestRect b, southeastRect b, southwestRect b].countP
      (fun r => r.ContainsPoint point)) ≤ 1 := by
  rcases lt_trichotomy point.x b.x with hx | hx | hx <;>
    rcases lt_trichotomy point.y b.y with hy | hy | hy
  · have f1 : (northeastRect b).ContainsPoint point = false :=
      contains_eq_false _ _ fun h => by
        obtain ⟨a1, a2, a3, a4⟩ := (northeastRect_contains_iff b point).mp h; linarith
    have f2 : (northwestRect b).ContainsPoint point = false :=
      contains_eq_false _ _ fun h => by
        obtain ⟨a1, a2, a3, a4⟩ := (northwestRect_contains_iff b point).mp h; linarith
    have f3 : (southeastRect b).ContainsPoint point = false :=
      contains_eq_false _ _ fun h => by
        obtain ⟨a1, a2, a3, a4⟩ := (southeastRect_contains_iff b point).mp h; linarith
    cases f4 : (southwestRect b).ContainsPoint point <;>
      simp [List.countP_cons, f1, f2, f3, f4]
  · have f1 : (northeastRect b).ContainsPoint point = false :=
      contains_eq_false _ _ fun h => by
        obtain ⟨a1, a2, a3, a4⟩ := (northeastRect_contains_iff b point).mp h; linarith
    have f2 : (northwestRect b).ContainsPoint point = false :=
      contains_eq_false _ _ fun h => by
        obtain ⟨a1, a2, a3, a4⟩ := (northwestRect_contains_iff b point).mp h; linarith
    have f3 : (southeastRect b).ContainsPoint point = false :=
      contains_eq_false _ _ fun h => by
        obtain ⟨a1, a2, a3, a4⟩ := (southeastRect_contains_iff b point).mp h; linarith
    have f4 : (southwestRect b).ContainsPoint point = false :=
      contains_eq_false _ _ fun h => by
        obtain ⟨a1, a2, a3, a4⟩ := (southwestRect_contains_iff b point).mp h; linarith
    simp [List.countP_cons, f1, f2, f3, f4]
  · have f1 : (northeastRect b).ContainsPoint point = false :=
      contains_eq_false _ _ fun h => by
        obtain ⟨a1, a2, a3, a4⟩ := (northeastRect_contains_iff b point).mp h; linarith
    have f3 : (southeastRect b).ContainsPoint point = false :=
      contains_eq_false _ _ fun h => by
        obtain ⟨a1, a2, a3, a4⟩ := (southeastRect_contains_iff b point).mp h; linarith
    have f4 : (southwestRect b).ContainsPoint point = false :=
      contains_eq_false _ _ fun h => by
        obtain ⟨a1, a2, a3, a4⟩ := (southwestRect_contains_iff b point).mp h; linarith
    cases f2 : (northwestRect b).ContainsPoint point <;>
      simp [List.countP_cons, f1, f2, f3, f4]
  · have f1 : (northeastRect b).ContainsPoint point = false :=
      contains_eq_false _ _ fun h => by
        obtain ⟨a1, a2, a3, a4⟩ := (northeastRect_contains_iff b point).mp h; linarith
    have f2 : (northwestRect b).ContainsPoint point = false :=
      contains_eq_false _ _ fun h => by
        obtain ⟨a1, a2, a3, a4⟩ := (northwestRect_contains_iff b point).mp h; linarith
    have f3 : (southeastRect b).ContainsPoint point = false :=
      contains_eq_false _ _ fun h => by
        obtain ⟨a1, a2, a3, a4⟩ := (southeastRect_contains_iff b point).mp h; linarith
    have f4 : (southwestRect b).ContainsPoint point = false :=
      contains_eq_false _ _ fun h => by
        obtain ⟨a1, a2, a3, a4⟩ := (southwestRect_contains_iff b point).mp h; linarith
    simp [List.countP_cons, f1, f2, f3, f4]
  · have f1 : (northeastRect b).ContainsPoint point = false :=
      contains_eq_false _ _ fun h => by
        obtain ⟨a1, a2, a3, a4⟩ := (northeastRect_contains_iff b point).mp h; linarith
    have f2 : (northwestRect b).ContainsPoint point = false :=
      contains_eq_false _ _ fun h => by
        obtain ⟨a1, a2, a3, a4⟩ := (northwestRect_contains_iff b point).mp h; linarith
    have f3 : (southeastRect b).ContainsPoint point = false :=
      contains_eq_false _ _ fun h => by
        obtain ⟨a1, a2, a3, a4⟩ := (southeastRect_contains_iff b point).mp h; linarith
    have f4 : (southwestRect b).ContainsPoint point = false :=
      contains_eq_false _ _ fun h => by
        obtain ⟨a1, a2, a3, a4⟩ := (southwestRect_contains_iff b point).mp h; linarith
    simp [List.countP_cons, f1, f2, f3, f4]
  · have f1 : (northeastRect b).ContainsPoint point = false :=
      contains_eq_false _ _ fun h => by
        obtain ⟨a1, a2, a3, a4⟩ := (northeastRect_contains_iff b point).mp h; linarith
    have f2 : (northwestRect b).ContainsPoint point = false :=
      contains_eq_false _ _ fun h => by
        obtain ⟨a1, a2, a3, a4⟩ := (northwestRect_contains_iff b point).mp h; linarith
    have f4 : (southwestRect b).ContainsPoint point = false :=
      contains_eq_false _ _ fun h => by
        obtain ⟨a1, a2, a3, a4⟩ := (southwestRect_contains_iff b point).mp h; linarith
    cases f3 : (southeastRect b).ContainsPoint point <;>
      simp [List.countP_cons, f1, f2, f3, f4]
  · have f1 : (northeastRect b).ContainsPoint point = false :=
      contains_eq_false _ _ fun h => by
        obtain ⟨a1, a2, a3, a4⟩ := (northeastRect_contains_iff b point).mp h; linarith
    have f2 : (northwestRect b).ContainsPoint point = false :=
      contains_eq_false _ _ fun h => by
        obtain ⟨a1, a2, a3, a4⟩ := (northwestRect_contains_iff b point).mp h; linarith
    have f4 : (southwestRect b).ContainsPoint point = false :=
      contains_eq_false _ _ fun h => by
        obtain ⟨a1, a2, a3, a4⟩ := (southwestRect_contains_iff b point).mp h; linarith
    cases f3 : (southeastRect b).ContainsPoint point <;>
      simp [List.countP_cons, f1, f2, f3, f4]
  · have f1 : (northeastRect b).ContainsPoint point = false :=
      contains_eq_false _ _ fun h => by
        obtain ⟨a1, a2, a3, a4⟩ := (northeastRect_contains_iff b point).mp h; linarith
    have f2 : (northwestRect b).ContainsPoint point = false :=
      contains_eq_false _ _ fun h => by
        obtain ⟨a1, a2, a3, a4⟩ := (northwestRect_contains_iff b point).mp h; linarith
    have f3 : (southeastRect b).ContainsPoint point = false :=
      contains_eq_false _ _ fun h => by
        obtain ⟨a1, a2, a3, a4⟩ := (southeastRect_contains_iff b point).mp h; linarith
    have f4 : (southwestRect b).ContainsPoint point = false :=
      contains_eq_false _ _ fun h => by
        obtain ⟨a1, a2, a3, a4⟩ := (southwestRect_contains_iff b point).mp h; linarith
    simp [List.countP_cons, f1, f2, f3, f4]
  · have f2 : (northwestRect b).ContainsPoint point = false :=
      contains_eq_false _ _ fun h => by
        obtain ⟨a1, a2, a3, a4⟩ := (northwestRect_contains_iff b point).mp h; linarith
    have f3 : (southeastRect b).ContainsPoint point = false :=
      contains_eq_false _ _ fun h => by
        obtain ⟨a1, a2, a3, a4⟩ := (southeastRect_contains_iff b point).mp h; linarith
    have f4 : (southwestRect b).ContainsPoint point = false :=
      contains_eq_false _ _ fun h => by
        obtain ⟨a1, a2, a3, a4⟩ := (southwestRect_contains_iff b point).mp h; linarith
    cases f1 : (northeastRect b).ContainsPoint point <;>
      simp [List.countP_cons, f1, f2, f3, f4]

/-- A point lying exactly on an internal split line is contained by none of
the four quadrant rectangles. -/
theorem countP_quadrants_eq_zero (b : Rectangle) (point : Point)
    (hsplit : point.x = b.x ∨ point.y = b.y) :
    ([northeastRect b, northwestRect b, southeastRect b, southwestRect b].countP
      (fun r => r.ContainsPoint point)) = 0 := by
  have f1 : (northeastRect b).ContainsPoint point = false :=
    contains_eq_false _ _ fun h => by
      obtain ⟨a1, a2, a3, a4⟩ := (northeastRect_contains_iff b point).mp h
      rcases hsplit with hx | hy
      · linarith
      · linarith
  have f2 : (northwestRect b).ContainsPoint point = false :=
    contains_eq_false _ _ fun h => by
      obtain ⟨a1, a2, a3, a4⟩ := (northwestRect_contains_iff b point).mp h
      rcases hsplit with hx | hy
      · linarith
      · linarith
  have f3 : (southeastRect b).ContainsPoint point = false :=
    contains_eq_false _ _ fun h => by
      obtain ⟨a1, a2, a3, a4⟩ := (southeastRect_contains_iff b point).mp h
      rcases hsplit with hx | hy
      · linarith
      · linarith
  have f4 : (southwestRect b).ContainsPoint point = false :=
    contains_eq_false _ _ fun h => by
      obtain ⟨a1, a2, a3, a4⟩ := (southwestRect_contains_iff b point).mp h
      rcases hsplit with hx | hy
      · linarith
      · linarith
  simp [List.countP_cons, f1, f2, f3, f4]

/-- A point strictly inside the parent and off both split lines is contained
by exactly one of the four quadrant rectangles. -/
theorem countP_quadrants_eq_one (b : Rectangle) (point : Point)
    (hb : b.ContainsPoint point = true) (hx : point.x ≠ b.x) (hy : point.y ≠ b.y) :
    ([northeastRect b, northwestRect b, southeastRect b, southwestRect b].countP
      (fun r => r.ContainsPoint point)) = 1 := by
  obtain ⟨g1, g2, g3, g4⟩ := (containsPoint_iff b point).mp hb
  rcases lt_or_gt_of_ne hx with hx1 | hx1 <;> rcases lt_or_gt_of_ne hy with hy1 | hy1
  · have t4 : (southwestRect b).ContainsPoint point = true :=
      (southwestRect_contains_iff b point).mpr ⟨g1, hx1, g3, hy1⟩
    have f1 : (northeastRect b).ContainsPoint point = false :=
      contains_eq_false _ _ fun h => by
        obtain ⟨a1, a2, a3, a4⟩ := (northeastRect_contains_iff b point).mp h; linarith
    have f2 : (northwestRect b).ContainsPoint point = false :=
      contains_eq_false _ _ fun h => by
        obtain ⟨a1, a2, a3, a4⟩ := (northwestRect_contains_iff b point).mp h; linarith
    have f3 : (southeastRect b).ContainsPoint point = false :=
      contains_eq_false _ _ fun h => by
        obtain ⟨a1, a2, a3, a4⟩ := (southeastRect_contains_iff b point).mp h; linarith
    simp [List.countP_cons, f1, f2, f3, t4]
  · have t2 : (northwestRect b).ContainsPoint point = true :=
      (northwestRect_contains_iff b point).mpr ⟨g1, hx1, hy1, g4⟩
    have f1 : (northeastRect b).ContainsPoint point = false :=
      contains_eq_false _ _ fun h => by
        obtain ⟨a1, a2, a3, a4⟩ := (northeastRect_contains_iff b point).mp h; linarith
    have f3 : (southeastRect b).ContainsPoint point = false :=
      contains_eq_false _ _ fun h => by
        obtain ⟨a1, a2, a3, a4⟩ := (southeastRect_contains_iff b point).mp h; linarith
    have f4 : (southwestRect b).ContainsPoint point = false :=
      contains_eq_false _ _ fun h => by
        obtain ⟨a1, a2, a3, a4⟩ := (southwestRect_contains_iff b point).mp h; linarith
    simp [List.countP_cons, f1, t2, f3, f4]
  · have t3 : (southeastRect b).ContainsPoint point = true :=
      (southeastRect_contains_iff b point).mpr ⟨hx1, g2, g3, hy1⟩
    have f1 : (northeastRect b).ContainsPoint point = false :=
      contains_eq_false _ _ fun h => by
        obtain ⟨a1, a2, a3, a4⟩ := (northeastRect_contains_iff b point).mp h; linarith
    have f2 : (northwestRect b).ContainsPoint point = false :=
      contains_eq_false _ _ fun h => by
        obtain ⟨a1, a2, a3, a4⟩ := (northwestRect_contains_iff b point).mp h; linarith
    have f4 : (southwestRect b).ContainsPoint point = false :=
      contains_eq_false _ _ fun h => by
        obtain ⟨a1, a2, a3, a4⟩ := (southwestRect_contains_iff b point).mp h; linarith
    simp [List.countP_cons, f1, f2, t3, f4]
  · have t1 : (northeastRect b).ContainsPoint point = true :=
      (northeastRect_contains_iff b point).mpr ⟨hx1, g2, hy1, g4⟩
    have f2 : (northwestRect b).ContainsPoint point = false :=
      contains_eq_false _ _ fun h => by
        obtain ⟨a1, a2, a3, a4⟩ := (northwestRect_contains_iff b point).mp h; linarith
    have f3 : (southeastRect b).ContainsPoint point = false :=
      contains_eq_false _ _ fun h => by
        obtain ⟨a1, a2, a3, a4⟩ := (southeastRect_contains_iff b point).mp h; linarith
    have f4 : (southwestRect b).ContainsPoint point = false :=
      contains_eq_false _ _ fun h => by
        obtain ⟨a1, a2, a3, a4⟩ := (southwestRect_contains_iff b point).mp h; linarith
    simp [List.countP_cons, t1, f2, f3, f4]

/-- Claim C3: on any node satisfying the reachable-state invariants, once
divided the directly stored points are frozen: their length is exactly
`capacity` (so the append branch, guarded only by the length test, can never
fire again), an in-bounds insertion forwards the point to all four children
leaving the stored points untouched, an out-of-bounds insertion changes
nothing, the children created at the moment of subdivision never receive any
pre-subdivision point, and the invariants do hold for every tree the program
can build. -/
theorem points_frozen_after_subdivision (b : Rectangle) (c : Nat) (pts : List Point)
    (ne nw se sw : QuadTree) (point : Point)
    (hcap : capPosB (.node b c pts ne nw se sw) = true)
    (hinv : invB (.node b c pts ne nw se sw) = true) :
    pts.length = c ∧
    ¬ pts.length < c ∧
    ((QuadTree.node b c pts ne nw se sw).InsertPoint point).points = pts ∧
    (b.ContainsPoint point = true →
      (QuadTree.node b c pts ne nw se sw).InsertPoint point =
        .node b c pts (ne.InsertPoint point) (nw.InsertPoint point)
          (se.InsertPoint point) (sw.InsertPoint point)) ∧
    (b.ContainsPoint point = false →
      (QuadTree.node b c pts ne nw se sw).InsertPoint point =
        .node b c pts ne nw se sw) ∧
    (∀ (b0 : Rectangle) (c0 : Nat) (pts0 : List Point) (q : Point),
      1 ≤ c0 → ¬ pts0.length < c0 → b0.ContainsPoint q = true →
      ∀ s ∈ ((QuadTree.leaf b0 c0 pts0).InsertPoint q).childrenList,
        s.points = [q] ∨ s.points = []) ∧
    (∀ (b0 : Rectangle) (c0 : Nat) (ps : List Point), 1 ≤ c0 →
      invB (insertList (NewQuadTree b0 c0) ps) = true ∧
      capPosB (insertList (NewQuadTree b0 c0) ps) = true) := by
  have hlen : pts.length = c := by
    simp only [invB, Bool.and_eq_true, decide_eq_true_eq] at hinv
    exact hinv.1.1.1.1
  have hnlt : ¬ pts.length < c := by omega
  refine ⟨hlen, hnlt, ?_, ?_, ?_, ?_, ?_⟩
  · by_cases hcont : b.ContainsPoint point = false
    · rw [insertPoint_of_not_contains _ _ (by simpa [QuadTree.boundary] using hcont)]
      rfl
    · have hcont1 : b.ContainsPoint point = true := by
        cases h : b.ContainsPoint point
        · exact absurd h hcont
        · rfl
      rw [insertPoint_node_full b c pts ne nw se sw point hcap hnlt hcont1]
      rfl
  · intro hcont
    exact insertPoint_node_full b c pts ne nw se sw point hcap hnlt hcont
  · intro hcont
    exact insertPoint_of_not_contains _ _ (by simpa [QuadTree.boundary] using hcont)
  · intro b0 c0 pts0 q hc0 hf0 hq s hs
    rw [insertPoint_leaf_full b0 c0 pts0 q hc0 hf0 hq] at hs
    simp only [QuadTree.childrenList, List.mem_cons, List.not_mem_nil, or_false] at hs
    rcases hs with rfl | rfl | rfl | rfl <;>
      · simp only [QuadTree.points]
        split
        · exact Or.inl rfl
        · exact Or.inr rfl
  · intro b0 c0 ps hc0
    exact ⟨insertList_inv b0 c0 ps, insertList_capPos b0 c0 ps hc0⟩

/-- Witness for C3: a divided capacity-1 node with its single frozen point;
inserting (7, 7) leaves the stored points unchanged. -/
theorem points_frozen_after_subdivision_witness :
    ((QuadTree.node ⟨0, 0, 10, 10⟩ 1 [P 1 1]
        (.leaf ⟨5, 5, 5, 5⟩ 1 []) (.leaf ⟨-5, 5, 5, 5⟩ 1 [])
        (.leaf ⟨5, -5, 5, 5⟩ 1 []) (.leaf ⟨-5, -5, 5, 5⟩ 1 [])).InsertPoint
      (P 7 7)).points = [P 1 1] :=
  (points_frozen_after_subdivision ⟨0, 0, 10, 10⟩ 1 [P 1 1]
    (.leaf ⟨5, 5, 5, 5⟩ 1 []) (.leaf ⟨-5, 5, 5, 5⟩ 1 [])
    (.leaf ⟨5, -5, 5, 5⟩ 1 []) (.leaf ⟨-5, -5, 5, 5⟩ 1 [])
    (P 7 7) (by decide) (by decide)).2.2.1

/-- Claim C4: the four quadrant rectangles are pairwise disjoint under the
strict containment test (at most one contains any point); a point exactly on
an internal split line is contained by none of them; a point strictly inside
the parent and off the split lines is contained by exactly one; when a full
undivided node forwards the inserted point to its four fresh children, each
child stores the point exactly when its quadrant contains it (so the point
lands in exactly one child, or in none when it sits on a split line); and
forwarding to a child whose boundary does not contain the point is a no-op on
that child. -/
theorem quadrants_disjoint_routing (b : Rectangle) (point : Point) (c : Nat)
    (pts : List Point) (hc : 1 ≤ c) (hfull : ¬ pts.length < c) :
    ([northeastRect b, northwestRect b, southeastRect b, southwestRect b].countP
      (fun r => r.ContainsPoint point)) ≤ 1 ∧
    ((point.x = b.x ∨ point.y = b.y) →
      ([northeastRect b, northwestRect b, southeastRect b, southwestRect b].countP
        (fun r => r.ContainsPoint point)) = 0) ∧
    (b.ContainsPoint point = true → point.x ≠ b.x → point.y ≠ b.y →
      ([northeastRect b, northwestRect b, southeastRect b, southwestRect b].countP
        (fun r => r.ContainsPoint point)) = 1) ∧
    (b.ContainsPoint point = true →
      (QuadTree.leaf b c pts).InsertPoint point =
        .node b c pts
          (.leaf (northeastRect b) c
            (if (northeastRect b).ContainsPoint point then [point] else []))
          (.leaf (northwestRect b) c
            (if (northwestRect b).ContainsPoint point then [point] else []))
          (.leaf (southeastRect b) c
            (if (southeastRect b).ContainsPoint point then [point] else []))
          (.leaf (southwestRect b) c
            (if (southwestRect b).ContainsPoint point then [point] else []))) ∧
    (∀ s : QuadTree, s.boundary.ContainsPoint point = false →
      s.InsertPoint point = s) :=
  ⟨countP_quadrants_le_one b point,
    countP_quadrants_eq_zero b point,
    countP_quadrants_eq_one b point,
    fun hcont => insertPoint_leaf_full b c pts point hc hfull hcont,
    fun s hs => insertPoint_of_not_contains s point hs⟩

/-- Witness for C4: the capacity-1 demo boundary with the point (7, 7), which
lands in the northeast quadrant only. -/
theorem quadrants_disjoint_routing_witness :
    ([northeastRect ⟨0, 0, 10, 10⟩, northwestRect ⟨0, 0, 10, 10⟩,
      southeastRect ⟨0, 0, 10, 10⟩, southwestRect ⟨0, 0, 10, 10⟩].countP
      (fun r => r.ContainsPoint (P 7 7))) ≤ 1 :=
  (quadrants_disjoint_routing ⟨0, 0, 10, 10⟩ (P 7 7) 1 [P 1 1]
    (by decide) (by decide)).1

/-- Claim C5: for the capacity-4 tree over center (0,0), half-extents
(10,10): four in-bounds insertions leave the root undivided; a fifth
in-bounds insertion (distinctness is not even needed) divides it, creating
exactly four children with half-extents (5,5) centered at (±5, ±5); any
further insertion keeps `divided` true and never re-subdivides or changes the
stored points (the `divided` guard); in general every child rectangle has
half the parent's half-extents; and the four concrete child boxes tile the
parent exactly (as closed boxes they cover it; overlap-freeness of the open
interiors is `countP_quadrants_le_one`). -/
theorem capacity_trigger_subdivision (p1 p2 p3 p4 p5 : Point)
    (h1 : Rectangle.ContainsPoint ⟨0, 0, 10, 10⟩ p1 = true)
    (h2 : Rectangle.ContainsPoint ⟨0, 0, 10, 10⟩ p2 = true)
    (h3 : Rectangle.ContainsPoint ⟨0, 0, 10, 10⟩ p3 = true)
    (h4 : Rectangle.ContainsPoint ⟨0, 0, 10, 10⟩ p4 = true)
    (h5 : Rectangle.ContainsPoint ⟨0, 0, 10, 10⟩ p5 = true) :
    insertList demoRoot [p1, p2, p3, p4] = .leaf ⟨0, 0, 10, 10⟩ 4 [p1, p2, p3, p4] ∧
    (insertList demoRoot [p1, p2, p3, p4]).divided = false ∧
    ((insertList demoRoot [p1, p2, p3, p4]).InsertPoint p5).divided = true ∧
    (insertList demoRoot [p1, p2, p3, p4]).InsertPoint p5 =
      .node ⟨0, 0, 10, 10⟩ 4 [p1, p2, p3, p4]
        (.leaf ⟨5, 5, 5, 5⟩ 4
          (if Rectangle.ContainsPoint ⟨5, 5, 5, 5⟩ p5 then [p5] else []))
        (.leaf ⟨-5, 5, 5, 5⟩ 4
          (if Rectangle.ContainsPoint ⟨-5, 5, 5, 5⟩ p5 then [p5] else []))
        (.leaf ⟨5, -5, 5, 5⟩ 4
          (if Rectangle.ContainsPoint ⟨5, -5, 5, 5⟩ p5 then [p5] else []))
        (.leaf ⟨-5, -5, 5, 5⟩ 4
          (if Rectangle.ContainsPoint ⟨-5, -5, 5, 5⟩ p5 then [p5] else [])) ∧
    (∀ q : Point,
      (((insertList demoRoot [p1, p2, p3, p4]).InsertPoint p5).InsertPoint q).divided =
        true ∧
      (((insertList demoRoot [p1, p2, p3, p4]).InsertPoint p5).InsertPoint q).points =
        [p1, p2, p3, p4]) ∧
    (∀ b : Rectangle,
      (northeastRect b).w = b.w / 2 ∧ (northeastRect b).h = b.h / 2 ∧
      (northwestRect b).w = b.w / 2 ∧ (northwestRect b).h = b.h / 2 ∧
      (southeastRect b).w = b.w / 2 ∧ (southeastRect b).h = b.h / 2 ∧
      (southwestRect b).w = b.w / 2 ∧ (southwestRect b).h = b.h / 2) ∧
    (∀ qx qy : ℚ, closedMember ⟨0, 0, 10, 10⟩ qx qy ↔
      (closedMember ⟨5, 5, 5, 5⟩ qx qy ∨ closedMember ⟨-5, 5, 5, 5⟩ qx qy ∨
        closedMember ⟨5, -5, 5, 5⟩ qx qy ∨ closedMember ⟨-5, -5, 5, 5⟩ qx qy)) := by
  have e1 : demoRoot.InsertPoint p1 = .leaf ⟨0, 0, 10, 10⟩ 4 [p1] := by
    show (QuadTree.leaf ⟨0, 0, 10, 10⟩ 4 []).InsertPoint p1 = _
    rw [insertPoint_leaf_append ⟨0, 0, 10, 10⟩ 4 [] p1 h1 (by norm_num)]
    rfl
  have e2 : (QuadTree.leaf ⟨0, 0, 10, 10⟩ 4 [p1]).InsertPoint p2 =
      .leaf ⟨0, 0, 10, 10⟩ 4 [p1, p2] := by
    rw [insertPoint_leaf_append ⟨0, 0, 10, 10⟩ 4 [p1] p2 h2 (by norm_num)]
    rfl
  have e3 : (QuadTree.leaf ⟨0, 0, 10, 10⟩ 4 [p1, p2]).InsertPoint p3 =
      .leaf ⟨0, 0, 10, 10⟩ 4 [p1, p2, p3] := by
    rw [insertPoint_leaf_append ⟨0, 0, 10, 10⟩ 4 [p1, p2] p3 h3 (by norm_num)]
    rfl
  have e4 : (QuadTree.leaf ⟨0, 0, 10, 10⟩ 4 [p1, p2, p3]).InsertPoint p4 =
      .leaf ⟨0, 0, 10, 10⟩ 4 [p1, p2, p3, p4] := by
    rw [insertPoint_leaf_append ⟨0, 0, 10, 10⟩ 4 [p1, p2, p3] p4 h4 (by norm_num)]
    rfl
  have efold : insertList demoRoot [p1, p2, p3, p4] =
      .leaf ⟨0, 0, 10, 10⟩ 4 [p1, p2, p3, p4] := by
    show (((demoRoot.InsertPoint p1).InsertPoint p2).InsertPoint p3).InsertPoint p4 = _
    rw [e1, e2, e3, e4]
  have hneR : northeastRect ⟨0, 0, 10, 10⟩ = (⟨5, 5, 5, 5⟩ : Rectangle) := by
    norm_num [northeastRect]
  have hnwR : northwestRect ⟨0, 0, 10, 10⟩ = (⟨-5, 5, 5, 5⟩ : Rectangle) := by
    norm_num [northwestRect]
  have hseR : southeastRect ⟨0, 0, 10, 10⟩ = (⟨5, -5, 5, 5⟩ : Rectangle) := by
    norm_num [southeastRect]
  have hswR : southwestRect ⟨0, 0, 10, 10⟩ = (⟨-5, -5, 5, 5⟩ : Rectangle) := by
    norm_num [southwestRect]
  have e5 : (QuadTree.leaf ⟨0, 0, 10, 10⟩ 4 [p1, p2, p3, p4]).InsertPoint p5 =
      .node ⟨0, 0, 10, 10⟩ 4 [p1, p2, p3, p4]
        (.leaf ⟨5, 5, 5, 5⟩ 4
          (if Rectangle.ContainsPoint ⟨5, 5, 5, 5⟩ p5 then [p5] else []))
        (.leaf ⟨-5, 5, 5, 5⟩ 4
          (if Rectangle.ContainsPoint ⟨-5, 5, 5, 5⟩ p5 then [p5] else []))
        (.leaf ⟨5, -5, 5, 5⟩ 4
          (if Rectangle.ContainsPoint ⟨5, -5, 5, 5⟩ p5 then [p5] else []))
        (.leaf ⟨-5, -5, 5, 5⟩ 4
          (if Rectangle.ContainsPoint ⟨-5, -5, 5, 5⟩ p5 then [p5] else [])) := by
    rw [insertPoint_leaf_full ⟨0, 0, 10, 10⟩ 4 [p1, p2, p3, p4] p5 (by norm_num)
      (by norm_num) h5, hneR, hnwR, hseR, hswR]
  refine ⟨efold, by rw [efold]; rfl, by rw [efold, e5]; rfl, by rw [efold]; exact e5,
    ?_, ?_, ?_⟩
  · intro q
    rw [efold, e5]
    by_cases hq : Rectangle.ContainsPoint ⟨0, 0, 10, 10⟩ q = false
    · rw [insertPoint_of_not_contains _ _ (by simpa [QuadTree.boundary] using hq)]
      exact ⟨rfl, rfl⟩
    · have hq1 : Rectangle.ContainsPoint ⟨0, 0, 10, 10⟩ q = true := by
        cases h : Rectangle.ContainsPoint ⟨0, 0, 10, 10⟩ q
        · exact absurd h hq
        · rfl
      rw [insertPoint_node_full _ _ _ _ _ _ _ _ (by simp [capPosB]) (by norm_num) hq1]
      exact ⟨rfl, rfl⟩
  · intro b
    refine ⟨rfl, rfl, rfl, rfl, rfl, rfl, rfl, rfl⟩
  · intro qx qy
    simp only [closedMember]
    norm_num
    constructor
    · rintro ⟨ha, hb, hc, hd⟩
      rcases le_total qx 0 with hqx | hqx <;> rcases le_total qy 0 with hqy | hqy
      · exact Or.inr (Or.inr (Or.inr
          ⟨by linarith, by linarith, by linarith, by linarith⟩))
      · exact Or.inr (Or.inl ⟨by linarith, by linarith, by linarith, by linarith⟩)
      · exact Or.inr (Or.inr (Or.inl
          ⟨by linarith, by linarith, by linarith, by linarith⟩))
      · exact Or.inl ⟨by linarith, by linarith, by linarith, by linarith⟩
    · rintro (⟨ha, hb, hc, hd⟩ | ⟨ha, hb, hc, hd⟩ | ⟨ha, hb, hc, hd⟩ | ⟨ha, hb, hc, hd⟩) <;>
        exact ⟨by linarith, by linarith, by linarith, by linarith⟩

/-- Witness for C5: five concrete in-bounds points trigger exactly one
subdivision. -/
theorem capacity_trigger_subdivision_witness :
    ((insertList demoRoot [P 1 1, P 2 2, P 3 3, P (-1) (-1)]).InsertPoint
      (P 4 4)).divided = true :=
  (capacity_trigger_subdivision (P 1 1) (P 2 2) (P 3 3) (P (-1) (-1)) (P 4 4)
    (by norm_num [Rectangle.ContainsPoint, P]) (by norm_num [Rectangle.ContainsPoint, P])
    (by norm_num [Rectangle.ContainsPoint, P]) (by norm_num [Rectangle.ContainsPoint, P])
    (by norm_num [Rectangle.ContainsPoint, P])).2.2.1

/-- Claim C9: two query calls through the default argument do not leak points
into each other.  The default list starts empty at module load and, because a
call receiving an empty list immediately rebinds it (`if not found:
found = []`), it is never mutated: the second call's result is exactly what a
standalone call returns, and with region-disjoint queries no point of the
first result appears in the second. -/
theorem fresh_accumulator_no_leak (t : QuadTree) (r1 r2 : Rectangle)
    (hdisj : ∀ p : Point, ¬(r1.ContainsPoint p = true ∧ r2.ContainsPoint p = true)) :
    (QueryRegionDefaultCall t r2 ((QueryRegionDefaultCall t r1 []).2)).1 =
      (QueryRegionDefaultCall t r2 []).1 ∧
    (∀ p ∈ (QueryRegionDefaultCall t r2 ((QueryRegionDefaultCall t r1 []).2)).1,
      p ∉ (QueryRegionDefaultCall t r1 []).1) := by
  have hd2 : (QueryRegionDefaultCall t r1 []).2 = [] := rfl
  refine ⟨by rw [hd2], ?_⟩
  intro p hp hmem1
  rw [hd2] at hp
  have hp2 : p ∈ t.QueryRegion r2 [] := by
    simpa [QueryRegionDefaultCall] using hp
  have hp1 : p ∈ t.QueryRegion r1 [] := by
    simpa [QueryRegionDefaultCall] using hmem1
  have h2 := mem_queryRegion t r2 [] p hp2
  have h1 := mem_queryRegion t r1 [] p hp1
  simp only [List.not_mem_nil, false_or] at h1 h2
  exact hdisj p ⟨h1, h2⟩

/-- Witness for C9: one stored point per disjoint query box. -/
theorem fresh_accumulator_no_leak_witness :
    (QueryRegionDefaultCall (QuadTree.leaf ⟨0, 0, 10, 10⟩ 4 [P 0 0, P 5 0]) ⟨5, 0, 1, 1⟩
        ((QueryRegionDefaultCall (QuadTree.leaf ⟨0, 0, 10, 10⟩ 4 [P 0 0, P 5 0])
          ⟨0, 0, 1, 1⟩ []).2)).1 =
      (QueryRegionDefaultCall (QuadTree.leaf ⟨0, 0, 10, 10⟩ 4 [P 0 0, P 5 0])
        ⟨5, 0, 1, 1⟩ []).1 :=
  (fresh_accumulator_no_leak (QuadTree.leaf ⟨0, 0, 10, 10⟩ 4 [P 0 0, P 5 0])
    ⟨0, 0, 1, 1⟩ ⟨5, 0, 1, 1⟩ (by
      intro p hp
      obtain ⟨ha, hb⟩ := hp
      rw [containsPoint_iff] at ha hb
      obtain ⟨a1, a2, a3, a4⟩ := ha
      obtain ⟨b1, b2, b3, b4⟩ := hb
      norm_num at a2 b1
      linarith)).1

/-- Claim C1 is violated by the source (code bug): build the capacity-4 tree
over center (0,0), half-extents (10,10) by inserting (1,1), (2,2), (3,3),
(-1,-1), (4,4) — the fifth insertion subdivides the root — then insert (7,7),
which is stored in the northeast child.  Querying the box centered at (7,7)
with half-extents (1/2, 1/2) returns the empty list even though (7,7) is
stored in the northeast child and the box lies inside the northeast quadrant:
none of the root's four stored points matches the box, so the accumulator is
still empty when the child calls are made; each child call then rebinds its
`found` parameter to a fresh list (`if not found: found = []`) whose contents
the root call discards (child return values are ignored). -/
theorem queryRegion_drops_child_results :
    ((insertList demoRoot [P 1 1, P 2 2, P 3 3, P (-1) (-1), P 4 4]).InsertPoint
        (P 7 7)).northeastChild.map QuadTree.points = some [P 4 4, P 7 7] ∧
    ((insertList demoRoot [P 1 1, P 2 2, P 3 3, P (-1) (-1), P 4 4]).InsertPoint
        (P 7 7)).QueryRegion ⟨7, 7, 1/2, 1/2⟩ [] = [] := by
  have e1 : demoRoot.InsertPoint (P 1 1) = .leaf ⟨0, 0, 10, 10⟩ 4 [P 1 1] := by
    show (QuadTree.leaf ⟨0, 0, 10, 10⟩ 4 []).InsertPoint (P 1 1) = _
    rw [insertPoint_leaf_append _ _ _ _
      (by norm_num [Rectangle.ContainsPoint, P]) (by norm_num)]
    rfl
  have e2 : (QuadTree.leaf ⟨0, 0, 10, 10⟩ 4 [P 1 1]).InsertPoint (P 2 2) =
      .leaf ⟨0, 0, 10, 10⟩ 4 [P 1 1, P 2 2] := by
    rw [insertPoint_leaf_append _ _ _ _
      (by norm_num [Rectangle.ContainsPoint, P]) (by norm_num)]
    rfl
  have e3 : (QuadTree.leaf ⟨0, 0, 10, 10⟩ 4 [P 1 1, P 2 2]).InsertPoint (P 3 3) =
      .leaf ⟨0, 0, 10, 10⟩ 4 [P 1 1, P 2 2, P 3 3] := by
    rw [insertPoint_leaf_append _ _ _ _
      (by norm_num [Rectangle.ContainsPoint, P]) (by norm_num)]
    rfl
  have e4 : (QuadTree.leaf ⟨0, 0, 10, 10⟩ 4 [P 1 1, P 2 2, P 3 3]).InsertPoint
      (P (-1) (-1)) = .leaf ⟨0, 0, 10, 10⟩ 4 [P 1 1, P 2 2, P 3 3, P (-1) (-1)] := by
    rw [insertPoint_leaf_append _ _ _ _
      (by norm_num [Rectangle.ContainsPoint, P]) (by norm_num)]
    rfl
  have e5 : (QuadTree.leaf ⟨0, 0, 10, 10⟩ 4
      [P 1 1, P 2 2, P 3 3, P (-1) (-1)]).InsertPoint (P 4 4) =
      .node ⟨0, 0, 10, 10⟩ 4 [P 1 1, P 2 2, P 3 3, P (-1) (-1)]
        (.leaf ⟨5, 5, 5, 5⟩ 4 [P 4 4]) (.leaf ⟨-5, 5, 5, 5⟩ 4 [])
        (.leaf ⟨5, -5, 5, 5⟩ 4 []) (.leaf ⟨-5, -5, 5, 5⟩ 4 []) := by
    rw [insertPoint_leaf_full _ _ _ _ (by norm_num) (by norm_num)
      (by norm_num [Rectangle.ContainsPoint, P])]
    norm_num [northeastRect, northwestRect, southeastRect, southwestRect,
      Rectangle.ContainsPoint, P]
  have e6 : (QuadTree.node ⟨0, 0, 10, 10⟩ 4 [P 1 1, P 2 2, P 3 3, P (-1) (-1)]
      (.leaf ⟨5, 5, 5, 5⟩ 4 [P 4 4]) (.leaf ⟨-5, 5, 5, 5⟩ 4 [])
      (.leaf ⟨5, -5, 5, 5⟩ 4 []) (.leaf ⟨-5, -5, 5, 5⟩ 4 [])).InsertPoint (P 7 7) =
      .node ⟨0, 0, 10, 10⟩ 4 [P 1 1, P 2 2, P 3 3, P (-1) (-1)]
        (.leaf ⟨5, 5, 5, 5⟩ 4 [P 4 4, P 7 7]) (.leaf ⟨-5, 5, 5, 5⟩ 4 [])
        (.leaf ⟨5, -5, 5, 5⟩ 4 []) (.leaf ⟨-5, -5, 5, 5⟩ 4 []) := by
    rw [insertPoint_node_full _ _ _ _ _ _ _ _ (by simp [capPosB]) (by norm_num)
      (by norm_num [Rectangle.ContainsPoint, P])]
    rw [insertPoint_leaf_append _ _ _ _
      (by norm_num [Rectangle.ContainsPoint, P]) (by norm_num)]
    rw [insertPoint_of_not_contains (QuadTree.leaf ⟨-5, 5, 5, 5⟩ 4 []) (P 7 7)
      (by norm_num [QuadTree.boundary, Rectangle.ContainsPoint, P])]
    rw [insertPoint_of_not_contains (QuadTree.leaf ⟨5, -5, 5, 5⟩ 4 []) (P 7 7)
      (by norm_num [QuadTree.boundary, Rectangle.ContainsPoint, P])]
    rw [insertPoint_of_not_contains (QuadTree.leaf ⟨-5, -5, 5, 5⟩ 4 []) (P 7 7)
      (by norm_num [QuadTree.boundary, Rectangle.ContainsPoint, P])]
    rfl
  have efold : insertList demoRoot [P 1 1, P 2 2, P 3 3, P (-1) (-1), P 4 4] =
      .node ⟨0, 0, 10, 10⟩ 4 [P 1 1, P 2 2, P 3 3, P (-1) (-1)]
        (.leaf ⟨5, 5, 5, 5⟩ 4 [P 4 4]) (.leaf ⟨-5, 5, 5, 5⟩ 4 [])
        (.leaf ⟨5, -5, 5, 5⟩ 4 []) (.leaf ⟨-5, -5, 5, 5⟩ 4 []) := by
    show ((((demoRoot.InsertPoint (P 1 1)).InsertPoint (P 2 2)).InsertPoint
      (P 3 3)).InsertPoint (P (-1) (-1))).InsertPoint (P 4 4) = _
    rw [e1, e2, e3, e4, e5]
  constructor
  · rw [efold, e6]
    rfl
  · rw [efold, e6]
    rw [QuadTree.QueryRegion]
    norm_num [Rectangle.IntersectsRegion, Rectangle.ContainsPoint, P, List.filter]
